import Mathlib

/-!
Verification development for the alignment engine in optal/alignment.py.

Vectors of real samples are embedded as lists of rationals; numpy machine
floats are idealised as exact arithmetic.  Fallible operations (numpy
broadcast errors, Python exceptions such as IndexError or
UnboundLocalError) are embedded as Option results, with none standing for
the raised exception.
-/

/-- Embeds np.all(v == 0), the test used by the is_null property of the
_Command class (alignment.py line 536) and by the checks inside
_process_command_logic. -/
def is_null (v : List ℚ) : Bool :=
  v.all (fun x => decide (x = 0))

/-- Embeds np.array_equal on one-dimensional arrays: shapes and all entries
must agree, which for lists is plain equality. -/
def array_equal (a b : List ℚ) : Bool :=
  decide (a = b)

/-- Embeds numpy elementwise addition of two one-dimensional arrays,
including broadcasting: equal lengths add pairwise; a length-1 operand is
stretched to the other operand's length; any other shape combination
raises a ValueError, embedded as none. -/
def npAdd (a b : List ℚ) : Option (List ℚ) :=
  if a.length = b.length then
    some (List.zipWith (fun x y => x + y) a b)
  else if a.length = 1 then
    some (b.map (fun y => a.headD 0 + y))
  else if b.length = 1 then
    some (a.map (fun x => x + b.headD 0))
  else
    none

/-- Embeds _Command._process_command_logic (alignment.py lines 538-579).
P is the current device position, C the received command, S the sum passed
in by the caller.  The Python if/elif chains have no final else: when no
branch fires, the local variable decision is never assigned and the
return statement raises UnboundLocalError; that fall-through is embedded
as none. -/
def _process_command_logic (P C S : List ℚ) : Option Bool :=
  if is_null S then
    if !(is_null P) && !(is_null C) && array_equal C (P.map (fun x => -1 * x)) then
      some false
    else if is_null C && is_null P then
      some true
    else
      none
  else
    if !(is_null P) && is_null C && array_equal S P then
      some true
    else if !(is_null C) && !(is_null P) then
      some false
    else if is_null P && !(is_null C) && array_equal S C then
      some false
    else
      none

/-- Embeds _Command.__add__ (alignment.py lines 498-524): the combined
vector is the numpy sum of the two operand vectors (none on a broadcast
ValueError), and the to_ignore flag comes from _process_command_logic
(none when that logic falls through). -/
def _Command_add (P C : List ℚ) : Option (List ℚ × Bool) :=
  match npAdd P C with
  | none => none
  | some S =>
    match _process_command_logic P C S with
    | none => none
    | some ig => some (S, ig)

/-- When a list of zeros is added pairwise on the right, the sum is the
left operand. -/
theorem zipWith_add_null_right (P C : List ℚ) (h : P.length = C.length)
    (hC : is_null C = true) : List.zipWith (fun x y => x + y) P C = P := by
  induction P generalizing C with
  | nil => simp
  | cons p ps ih =>
    cases C with
    | nil => simp at h
    | cons c cs =>
      simp only [is_null, List.all_cons, Bool.and_eq_true, decide_eq_true_eq] at hC
      simp only [List.zipWith_cons_cons, hC.1, add_zero, List.cons.injEq, true_and]
      exact ih cs (by simpa using h) (by simp [is_null, hC.2])

/-- When a list of zeros is added pairwise on the left, the sum is the
right operand. -/
theorem zipWith_add_null_left (P C : List ℚ) (h : P.length = C.length)
    (hP : is_null P = true) : List.zipWith (fun x y => x + y) P C = C := by
  induction P generalizing C with
  | nil => cases C with
    | nil => simp
    | cons c cs => simp at h
  | cons p ps ih =>
    cases C with
    | nil => simp at h
    | cons c cs =>
      simp only [is_null, List.all_cons, Bool.and_eq_true, decide_eq_true_eq] at hP
      simp only [List.zipWith_cons_cons, hP.1, zero_add, List.cons.injEq, true_and]
      exact ih cs (by simpa using h) (by simp [is_null, hP.2])

/-- C1: adding two _Command objects over equal-length vectors returns the
sum S = P + C together with an ignore flag that matches the section 4.1
decision table exactly: false when S = 0 with P and C both nonzero and
C = -P; true when S = 0 with P and C both zero; true when S is nonzero
with P nonzero and C zero; false when S is nonzero with P and C both
nonzero; false when S is nonzero with P zero and C nonzero. -/
theorem command_add_matches_table (P C S : List ℚ) (h : P.length = C.length)
    (hS : S = List.zipWith (fun x y => x + y) P C) :
    (is_null S = true → is_null P = false → is_null C = false →
      C = P.map (fun x => -x) → _Command_add P C = some (S, false)) ∧
    (is_null S = true → is_null P = true → is_null C = true →
      _Command_add P C = some (S, true)) ∧
    (is_null S = false → is_null P = false → is_null C = true →
      _Command_add P C = some (S, true)) ∧
    (is_null S = false → is_null P = false → is_null C = false →
      _Command_add P C = some (S, false)) ∧
    (is_null S = false → is_null P = true → is_null C = false →
      _Command_add P C = some (S, false)) := by
  have hadd : npAdd P C = some S := by
    simp [npAdd, h, hS]
  refine ⟨?_, ?_, ?_, ?_, ?_⟩
  · intro h0 hP hC hneg
    have harr : array_equal C (P.map (fun x => -x)) = true := by
      simp [array_equal, hneg]
    simp [_Command_add, hadd, _process_command_logic, h0, hP, hC, neg_one_mul, harr]
  · intro h0 hP hC
    simp [_Command_add, hadd, _process_command_logic, h0, hP, hC]
  · intro h0 hP hC
    have hSP : array_equal S P = true := by
      simp [array_equal, hS, zipWith_add_null_right P C h hC]
    simp [_Command_add, hadd, _process_command_logic, h0, hP, hC, hSP]
  · intro h0 hP hC
    simp [_Command_add, hadd, _process_command_logic, h0, hP, hC]
  · intro h0 hP hC
    have hSC : array_equal S C = true := by
      simp [array_equal, hS, zipWith_add_null_left P C h hP]
    simp [_Command_add, hadd, _process_command_logic, h0, hP, hC, hSC]

/-- Witness for C1: a concrete return-to-zero pair, position 1 plus
command -1, combines to the zero vector with ignore = false. -/
theorem command_add_matches_table_witness :
    _Command_add [(1 : ℚ)] [(-1 : ℚ)] = some ([0], false) :=
  (command_add_matches_table [1] [-1] [0] (by decide) (by norm_num)).1
    (by decide) (by decide) (by decide) (by norm_num)

/-- C3: the null-pattern P nonzero, C nonzero, S zero with C different
from -P lies outside the documented decision table; on it
_process_command_logic falls through every branch and the decision is
left unset (none, the UnboundLocalError), not an explicit UnhandledCase
error. -/
theorem process_command_logic_unset_branch :
    _process_command_logic [(1 : ℚ)] [(1 : ℚ)] [(0 : ℚ)] = none := by
  norm_num [_process_command_logic, is_null, array_equal]

/-- C8 counterexample: vectors of lengths 1 and 3 have incompatible
dimensions, yet numpy broadcasting stretches the singleton and the
addition returns a result instead of failing. -/
theorem command_add_broadcast_counterexample :
    (List.length [(1 : ℚ)] = List.length [(2 : ℚ), 3]) = False ∧
    _Command_add [(1 : ℚ)] [(2 : ℚ), 3] = some ([3, 4], false) := by
  constructor
  · simp
  · norm_num [_Command_add, npAdd, _process_command_logic, is_null, array_equal]

/-- C8 amended: adding two _Command objects whose vectors differ in length
fails (broadcast ValueError, no result produced) provided neither operand
has length 1; a length-1 operand is instead broadcast. -/
theorem command_add_shape_mismatch (P C : List ℚ) (h : P.length ≠ C.length)
    (hP : P.length ≠ 1) (hC : C.length ≠ 1) :
    _Command_add P C = none := by
  simp [_Command_add, npAdd, h, hP, hC]

/-- Witness for the amended C8: lengths 2 and 3 cannot broadcast, so the
addition fails. -/
theorem command_add_shape_mismatch_witness :
    _Command_add [(1 : ℚ), 2] [(1 : ℚ), 2, 3] = none :=
  command_add_shape_mismatch [1, 2] [1, 2, 3] (by decide) (by decide) (by decide)

/-- An image as handled by Alignment._push_pull_redux: a fixed-shape 2D
array of real samples together with a per-pixel invalidity mask (true
marks an invalid pixel, as in numpy masked arrays). -/
structure MaskedImage (r c : Nat) where
  data : Fin r → Fin c → ℚ
  mask : Fin r → Fin c → Bool

/-- Embeds the loop body of _push_pull_redux (alignment.py lines 364-371)
for x running over consecutive images: given the previous image and its
weight, it accumulates imglist[x] * template[x] + imglist[x-1] *
template[x-1] into the running sum and ORs the two masks into the running
master mask.  A weight list shorter than the images raises an IndexError
at template[x], embedded as none. -/
def ppSum {r c : Nat} : MaskedImage r c → ℚ → List (MaskedImage r c) → List ℚ →
    Option ((Fin r → Fin c → ℚ) × (Fin r → Fin c → Bool))
  | _, _, [], _ => some (fun _ _ => 0, fun _ _ => false)
  | prev, pw, img :: rest, w :: wrest =>
    match ppSum img w rest wrest with
    | none => none
    | some dm =>
      some (fun i j => img.data i j * w + prev.data i j * pw + dm.1 i j,
            fun i j => (img.mask i j || prev.mask i j) || dm.2 i j)
  | _, _, _ :: _, [] => none

/-- Embeds Alignment._push_pull_redux (alignment.py lines 346-374) with
the caller's template threaded as explicit state: the first component is
the returned demodulated image (none when the Python code raises before
returning) and the second component is the caller's template list after
the call.  The code first mutates the template in place with
template.insert(0, -1); with fewer than two images the loop leaves
master_mask unbound (UnboundLocalError at the masked_array line), and a
template shorter than the image list raises IndexError, in both cases
before template.pop(0) runs, so the prepended -1 stays in the caller's
list.  On the normal path the accumulated sum is divided by the command
amplitude and the pop restores the template. -/
def _push_pull_redux {r c : Nat} (imglist : List (MaskedImage r c))
    (template : List ℚ) (cmdAmp : ℚ) : Option (MaskedImage r c) × List ℚ :=
  let t := (-1 : ℚ) :: template
  match imglist with
  | [] => (none, t)
  | [_] => (none, t)
  | i0 :: i1 :: rest =>
    match ppSum i0 (-1) (i1 :: rest) template with
    | none => (none, t)
    | some dm => (some ⟨fun i j => dm.1 i j / cmdAmp, dm.2⟩, template)

/-- The pixelwise weighted sum of a list of images, weights paired with
images positionally. -/
def weightedSum {r c : Nat} : List ℚ → List (MaskedImage r c) → Fin r → Fin c → ℚ
  | w :: ws, img :: imgs, i, j => w * img.data i j + weightedSum ws imgs i j
  | _, _, _, _ => 0

/-- The effective weights the pairwise accumulation of _push_pull_redux
gives to the non-reference images: every interior weight is counted
twice, the last weight once. -/
def doubledWeights : List ℚ → List ℚ
  | [] => []
  | [t] => [t]
  | t :: rest => (2 * t) :: doubledWeights rest

/-- Modelled on the words of the spec (section 4.4, demodulation): pair
the images [reference, img_1, ..., img_n] with weights [-1, t_1, ...,
t_n], accumulate the weighted sum, and divide by the amplitude. -/
def spec_demodulated {r c : Nat} (template : List ℚ) (amp : ℚ)
    (ref : MaskedImage r c) (imgs : List (MaskedImage r c))
    (i : Fin r) (j : Fin c) : ℚ :=
  ((-1) * ref.data i j + weightedSum template imgs i j) / amp

/-- Unfolding equation for doubledWeights on a list of two or more
weights. -/
theorem doubledWeights_cons2 (w w2 : ℚ) (ws : List ℚ) :
    doubledWeights (w :: w2 :: ws) = (2 * w) :: doubledWeights (w2 :: ws) := rfl

/-- The pairwise accumulation of _push_pull_redux succeeds on a nonempty
image list matched by an equally long weight list, and its data plane
carries the previous image once and the listed images with their doubled
weights (interior weights twice, last weight once). -/
theorem ppSum_data {r c : Nat} :
    ∀ (imgs : List (MaskedImage r c)) (ws : List ℚ) (prev : MaskedImage r c)
      (pw : ℚ), imgs ≠ [] → imgs.length = ws.length →
      ∃ dm, ppSum prev pw imgs ws = some dm ∧
        ∀ i j, dm.1 i j = prev.data i j * pw + weightedSum (doubledWeights ws) imgs i j := by
  intro imgs
  induction imgs with
  | nil => intro ws prev pw hne _; exact absurd rfl hne
  | cons img rest ih =>
    intro ws prev pw _ hlen
    cases ws with
    | nil => simp at hlen
    | cons w wrest =>
      cases rest with
      | nil =>
        cases wrest with
        | nil =>
          refine ⟨(fun i j => img.data i j * w + prev.data i j * pw + 0,
                   fun i j => (img.mask i j || prev.mask i j) || false), ?_, ?_⟩
          · simp [ppSum]
          · intro i j
            simp only [weightedSum, doubledWeights]
            ring
        | cons w2 ws2 =>
          simp at hlen
      | cons img2 rest2 =>
        have hlen' : (img2 :: rest2).length = wrest.length := by simpa using hlen
        cases wrest with
        | nil => simp at hlen'
        | cons w2 ws2 =>
          obtain ⟨dm', hdm', hval⟩ :=
            ih (w2 :: ws2) img w (by simp) hlen'
          refine ⟨(fun i j => img.data i j * w + prev.data i j * pw + dm'.1 i j,
                   fun i j => (img.mask i j || prev.mask i j) || dm'.2 i j), ?_, ?_⟩
          · simp only [ppSum] at hdm' ⊢
            rw [hdm']
          · intro i j
            dsimp only
            rw [hval i j, doubledWeights_cons2]
            simp only [weightedSum]
            ring

/-- The mask accumulated by the pairwise loop is invalid wherever the
previous image or any listed image is invalid. -/
theorem ppSum_mask {r c : Nat} :
    ∀ (imgs : List (MaskedImage r c)) (ws : List ℚ) (prev : MaskedImage r c)
      (pw : ℚ) (dm : (Fin r → Fin c → ℚ) × (Fin r → Fin c → Bool)),
      ppSum prev pw imgs ws = some dm → imgs ≠ [] →
      ∀ (i : Fin r) (j : Fin c),
        (prev.mask i j = true ∨ ∃ im ∈ imgs, im.mask i j = true) →
        dm.2 i j = true := by
  intro imgs
  induction imgs with
  | nil => intro ws prev pw dm _ hne; exact absurd rfl hne
  | cons img rest ih =>
    intro ws prev pw dm h _ i j hmem
    cases ws with
    | nil => simp [ppSum] at h
    | cons w wrest =>
      simp only [ppSum] at h
      cases heq : ppSum img w rest wrest with
      | none => rw [heq] at h; simp at h
      | some dm' =>
        rw [heq] at h
        simp only [Option.some.injEq] at h
        subst h
        rcases hmem with hprev | ⟨im, him, hmask⟩
        · simp [hprev]
        · rcases List.mem_cons.mp him with him0 | himr
          · subst him0; simp [hmask]
          · have hrest : rest ≠ [] := by
              intro hr; rw [hr] at himr; simp at himr
            have hr := ih wrest img w dm' heq hrest i j (Or.inr ⟨im, himr, hmask⟩)
            simp [hr]

/-- Concrete 1x1 reference image holding 0, all pixels valid. -/
def ppRefImg : MaskedImage 1 1 := ⟨fun _ _ => 0, fun _ _ => false⟩

/-- Concrete 1x1 image holding 1, all pixels valid. -/
def ppOneImg : MaskedImage 1 1 := ⟨fun _ _ => 1, fun _ _ => false⟩

/-- Concrete 1x1 image holding 0, all pixels valid. -/
def ppZeroImg : MaskedImage 1 1 := ⟨fun _ _ => 0, fun _ _ => false⟩

/-- Concrete 1x1 image holding 5, its pixel invalid. -/
def ppMaskImg : MaskedImage 1 1 := ⟨fun _ _ => 5, fun _ _ => true⟩

/-- C2 counterexample: with template [1, 1], amplitude 1 and images
[0, 1, 0], the code returns 2 at the pixel while the spec's weighted sum
(-1)*reference + 1*img_1 + 1*img_2 divided by the amplitude gives 1: the
pairwise loop counts the interior image twice. -/
theorem push_pull_weighted_sum_counterexample :
    ((_push_pull_redux [ppRefImg, ppOneImg, ppZeroImg] [1, 1] 1).1).map
        (fun im => im.data 0 0) = some 2 ∧
    spec_demodulated [1, 1] 1 ppRefImg [ppOneImg, ppZeroImg] 0 0 = 1 ∧
    (2 : ℚ) ≠ 1 := by
  refine ⟨?_, ?_, by norm_num⟩
  · norm_num [_push_pull_redux, ppSum, ppRefImg, ppOneImg, ppZeroImg]
  · norm_num [spec_demodulated, weightedSum, ppRefImg, ppOneImg, ppZeroImg]

/-- C2 amended: for a nonempty template matched by as many images after
the reference and a nonzero amplitude, the demodulated image equals the
weighted sum with the reference at weight -1 and the remaining images at
their template weights doubled for every interior image (the last image
keeps its single weight), divided by the amplitude. -/
theorem push_pull_demodulates_doubled_weights {r c : Nat} (template : List ℚ)
    (amp : ℚ) (ref : MaskedImage r c) (imgs : List (MaskedImage r c))
    (hne : template ≠ []) (hlen : imgs.length = template.length) (hamp : amp ≠ 0)
    (i : Fin r) (j : Fin c) :
    ((_push_pull_redux (ref :: imgs) template amp).1).map (fun im => im.data i j) =
      some (((-1) * ref.data i j + weightedSum (doubledWeights template) imgs i j) / amp) := by
  obtain ⟨im1, rest, rfl⟩ : ∃ im1 rest, imgs = im1 :: rest := by
    cases imgs with
    | nil =>
      cases template with
      | nil => exact absurd rfl hne
      | cons t ts => simp at hlen
    | cons a b => exact ⟨a, b, rfl⟩
  obtain ⟨dm, hdm, hval⟩ := ppSum_data (im1 :: rest) template ref (-1) (by simp) hlen
  simp only [_push_pull_redux, hdm]
  simp only [Option.map_some']
  rw [hval i j]
  ring_nf

/-- Witness for the amended C2: template [1, 1], amplitude 1, images
[0, 1, 0]; the doubled-weight formula evaluates to 2, matching the code. -/
theorem push_pull_demodulates_doubled_weights_witness :
    ((_push_pull_redux [ppRefImg, ppOneImg, ppZeroImg] [(1 : ℚ), 1] 1).1).map
        (fun im => im.data 0 0) = some 2 := by
  have h := push_pull_demodulates_doubled_weights [(1 : ℚ), 1] 1 ppRefImg
      [ppOneImg, ppZeroImg] (by simp) (by simp) (by norm_num) 0 0
  rw [h]
  norm_num [weightedSum, doubledWeights, ppRefImg, ppOneImg, ppZeroImg]

/-- C7: for a push-pull cycle of at least two images that completes, an
invalid pixel in any single image of the cycle makes the demodulated
image's mask invalid at that position, whichever image carried it. -/
theorem push_pull_mask_propagation {r c : Nat} (imglist : List (MaskedImage r c))
    (template : List ℚ) (cmdAmp : ℚ) (im : MaskedImage r c) (i : Fin r) (j : Fin c)
    (hlen : 2 ≤ imglist.length)
    (hsome : ((_push_pull_redux imglist template cmdAmp).1).isSome = true)
    (hmem : im ∈ imglist) (hmask : im.mask i j = true) :
    ((_push_pull_redux imglist template cmdAmp).1).map (fun im2 => im2.mask i j) =
      some true := by
  cases imglist with
  | nil => simp [_push_pull_redux] at hsome
  | cons i0 rest =>
    cases rest with
    | nil => simp [_push_pull_redux] at hsome
    | cons i1 rest2 =>
      cases heq : ppSum i0 (-1) (i1 :: rest2) template with
      | none => simp [_push_pull_redux, heq] at hsome
      | some dm =>
        have hm : dm.2 i j = true := by
          apply ppSum_mask (i1 :: rest2) template i0 (-1) dm heq (by simp) i j
          rcases List.mem_cons.mp hmem with h0 | hr
          · exact Or.inl (h0 ▸ hmask)
          · exact Or.inr ⟨im, hr, hmask⟩
        simp [_push_pull_redux, heq, hm]

/-- Witness for C7: the middle image of a three-image cycle carries the
invalid pixel and the demodulated mask is invalid there. -/
theorem push_pull_mask_propagation_witness :
    ((_push_pull_redux [ppRefImg, ppMaskImg, ppZeroImg] [(1 : ℚ), 1] 1).1).map
        (fun im2 => im2.mask 0 0) = some true :=
  push_pull_mask_propagation [ppRefImg, ppMaskImg, ppZeroImg] [(1 : ℚ), 1] 1
    ppMaskImg 0 0 (by simp) (by rfl) (by simp) (by rfl)

/-- C10: whenever _push_pull_redux completes normally (returns an image),
the caller's template list afterwards holds exactly the elements it held
before the call: the -1 prepended in place at the start has been popped
again. -/
theorem push_pull_restores_template {r c : Nat} (imglist : List (MaskedImage r c))
    (template : List ℚ) (cmdAmp : ℚ)
    (hsome : ((_push_pull_redux imglist template cmdAmp).1).isSome = true) :
    (_push_pull_redux imglist template cmdAmp).2 = template := by
  cases imglist with
  | nil => simp [_push_pull_redux] at hsome
  | cons i0 rest =>
    cases rest with
    | nil => simp [_push_pull_redux] at hsome
    | cons i1 rest2 =>
      cases heq : ppSum i0 (-1) (i1 :: rest2) template with
      | none => simp [_push_pull_redux, heq] at hsome
      | some dm => simp [_push_pull_redux, heq]

/-- Witness for C10: a completing three-image call leaves the caller's
template [1, 1] unchanged. -/
theorem push_pull_restores_template_witness :
    (_push_pull_redux [ppRefImg, ppOneImg, ppZeroImg] [(1 : ℚ), 1] 1).2 = [(1 : ℚ), 1] :=
  push_pull_restores_template [ppRefImg, ppOneImg, ppZeroImg] [(1 : ℚ), 1] 1 (by rfl)


/-- Scatter writes that never touch position p leave p at its initial
value. -/
theorem foldl_update_not_mem {n : Nat} (p : Fin n) :
    ∀ (pairs : List (Fin n × ℚ)) (f : Fin n → ℚ),
      p ∉ pairs.map Prod.fst →
      pairs.foldl (fun acc q => Function.update acc q.1 q.2) f p = f p := by
  intro pairs
  induction pairs with
  | nil => intro f _; rfl
  | cons q rest ih =>
    intro f hp
    simp only [List.map_cons, List.mem_cons, not_or] at hp
    rw [List.foldl_cons, ih _ hp.2, Function.update_noteq hp.1]

/-- With pairwise distinct keys, a scatter of key-value pairs ends with
each key holding its paired value. -/
theorem foldl_update_mem {n : Nat} :
    ∀ (pairs : List (Fin n × ℚ)) (f : Fin n → ℚ) (k : Fin n) (v : ℚ),
      (pairs.map Prod.fst).Nodup → (k, v) ∈ pairs →
      pairs.foldl (fun acc q => Function.update acc q.1 q.2) f k = v := by
  intro pairs
  induction pairs with
  | nil => intro f k v _ hm; simp at hm
  | cons q rest ih =>
    intro f k v hnd hm
    simp only [List.map_cons, List.nodup_cons] at hnd
    rcases List.mem_cons.mp hm with h0 | hr
    · subst h0
      rw [List.foldl_cons]
      rw [foldl_update_not_mem k rest _ (by simpa using hnd.1)]
      simp
    · rw [List.foldl_cons]
      exact ih _ k v hnd.2 hr

/-- Zipping a duplicate-free key list with values keeps the used keys
duplicate-free. -/
theorem zip_keys_nodup {n : Nat} :
    ∀ (dof : List (Fin n)) (s : List ℚ), dof.Nodup →
      ((List.zip dof s).map Prod.fst).Nodup := by
  intro dof
  induction dof with
  | nil => intro s _; simp
  | cons d rest ih =>
    intro s hnd
    cases s with
    | nil => simp
    | cons v vs =>
      simp only [List.zip_cons_cons, List.map_cons, List.nodup_cons]
      rw [List.nodup_cons] at hnd
      refine ⟨?_, ih vs hnd.2⟩
      intro hmem
      obtain ⟨pair, hpair, hfst⟩ := List.mem_map.mp hmem
      exact hnd.1 (hfst ▸ (List.of_mem_zip hpair).1)

/-- Embeds the Python slice fullCmd[slice(start, stop)] for the plain
nonnegative slices the configuration uses. -/
def slice_cmd (fullCmd : List ℚ) (start stop : Nat) : List ℚ :=
  (fullCmd.drop start).take (stop - start)

/-- Embeds the per-device body of Alignment._extract_cmds_to_apply
(alignment.py lines 305-310): allocate np.zeros(dofTot) and, for each
position i of the sliced command dev_idx, write dev_cmd[dof[i]] =
dev_idx[i] in order.  The type Fin dofTot carries the configuration
invariant that every DOF index is in range; a sliced command longer than
the DOF index list raises IndexError at dof[i], embedded as none. -/
def extract_device_cmd (dofTot : Nat) (dof : List (Fin dofTot))
    (fullCmd : List ℚ) (start stop : Nat) : Option (Fin dofTot → ℚ) :=
  let dev_idx := slice_cmd fullCmd start stop
  if dev_idx.length ≤ dof.length then
    some ((List.zip dof dev_idx).foldl
      (fun acc q => Function.update acc q.1 q.2) (fun _ => 0))
  else
    none

/-- C6: for a device whose DOF index list has distinct indices, the
vector built by _extract_cmds_to_apply before combination with read
positions gathers back through the DOF map to exactly the full command's
values at the device's slice positions, and every device position not
listed in the DOF map is exactly zero. -/
theorem extract_cmd_scatter_gather (dofTot : Nat) (dof : List (Fin dofTot))
    (fullCmd : List ℚ) (start stop : Nat) (hnd : dof.Nodup)
    (hlen : (slice_cmd fullCmd start stop).length ≤ dof.length) :
    (extract_device_cmd dofTot dof fullCmd start stop).map
        (fun dcmd => (dof.map dcmd).take (slice_cmd fullCmd start stop).length) =
      some (slice_cmd fullCmd start stop) ∧
    ∀ p : Fin dofTot, p ∉ dof →
      (extract_device_cmd dofTot dof fullCmd start stop).map (fun dcmd => dcmd p) =
        some 0 := by
  have hopt : extract_device_cmd dofTot dof fullCmd start stop =
      some ((List.zip dof (slice_cmd fullCmd start stop)).foldl
        (fun acc q => Function.update acc q.1 q.2) (fun _ => 0)) := by
    simp [extract_device_cmd, hlen]
  constructor
  · rw [hopt, Option.map_some']
    refine congrArg some ?_
    apply List.ext_getElem
    · simp only [List.length_take, List.length_map]
      omega
    · intro i h1 h2
      rw [List.getElem_take, List.getElem_map]
      apply foldl_update_mem
      · exact zip_keys_nodup dof (slice_cmd fullCmd start stop) hnd
      · have hi : i < (List.zip dof (slice_cmd fullCmd start stop)).length := by
          simp only [List.length_zip]
          omega
        have hmem := List.getElem_mem hi
        rw [List.getElem_zip] at hmem
        exact hmem
  · intro p hp
    rw [hopt, Option.map_some']
    refine congrArg some ?_
    apply foldl_update_not_mem
    intro hmem
    obtain ⟨pair, hpair, hfst⟩ := List.mem_map.mp hmem
    exact hp (hfst ▸ (List.of_mem_zip hpair).1)

/-- Witness for C6: device with 3 total DOF, DOF map [2, 0], full command
[5, 7, 9] sliced to [5, 7]; the gather returns [5, 7] and the unmapped
position 1 is zero. -/
theorem extract_cmd_scatter_gather_witness :
    (extract_device_cmd 3 [2, 0] [5, 7, 9] 0 2).map
        (fun dcmd => (([2, 0] : List (Fin 3)).map dcmd).take 2) = some [5, 7] ∧
    (extract_device_cmd 3 [2, 0] [5, 7, 9] 0 2).map (fun dcmd => dcmd 1) = some 0 := by
  have h := extract_cmd_scatter_gather 3 [2, 0] [5, 7, 9] 0 2 (by decide) (by decide)
  exact ⟨h.1, h.2 1 (by decide)⟩

/-- A per-device command as handled by Alignment._apply_command: the
vector and the to_ignore flag of the _Command object (None, the Python
default, is some-free). -/
structure DevCmd where
  vect : List ℚ
  to_ignore : Option Bool

/-- Observable effect of one loop iteration of _apply_command: the null
command was skipped, the move call was issued, or the move call raised
and the failure was logged with the device's identity. -/
inductive ApplyEvent
  | skipped (dev : String)
  | commanded (dev : String) (vect : List ℚ)
  | failed (dev : String) (err : String)

/-- The event one iteration of the _apply_command loop produces for one
device (alignment.py lines 276-284): Python's truthiness test
if cmd.to_ignore holds exactly when the flag is some true; otherwise the
move callable runs inside try/except and an exception is logged as a
failure with the device identity. -/
def apply_event (cmd : DevCmd) (fnc : List ℚ → Except String Unit)
    (dev : String) : ApplyEvent :=
  if cmd.to_ignore = some true then ApplyEvent.skipped dev
  else
    match fnc cmd.vect with
    | Except.ok _ => ApplyEvent.commanded dev cmd.vect
    | Except.error e => ApplyEvent.failed dev e

/-- Embeds Alignment._apply_command (alignment.py lines 260-287): zip the
device commands with the move callables and device names (truncating at
the shortest, as Python zip does) and process every triple in order,
returning the list of observable per-device events. -/
def _apply_command : List DevCmd → List (List ℚ → Except String Unit) →
    List String → List ApplyEvent
  | cmd :: cs, fnc :: fs, dev :: ds => apply_event cmd fnc dev :: _apply_command cs fs ds
  | _, _, _ => []

/-- The apply loop always runs to the end of the zipped device list. -/
theorem apply_command_length :
    ∀ (cs : List DevCmd) (fs : List (List ℚ → Except String Unit)) (ds : List String),
      (_apply_command cs fs ds).length = min (min cs.length fs.length) ds.length := by
  intro cs
  induction cs with
  | nil => intro fs ds; simp [_apply_command]
  | cons cmd cs' ih =>
    intro fs ds
    cases fs with
    | nil => simp [_apply_command]
    | cons fnc fs' =>
      cases ds with
      | nil => simp [_apply_command]
      | cons dev ds' =>
        simp only [_apply_command, List.length_cons, ih fs' ds']
        omega

/-- The event logged at each position of the apply loop depends only on
that position's device triple. -/
theorem apply_command_get :
    ∀ (cs : List DevCmd) (fs : List (List ℚ → Except String Unit)) (ds : List String)
      (j : Nat) (cmd : DevCmd) (fnc : List ℚ → Except String Unit) (dev : String),
      cs.get? j = some cmd → fs.get? j = some fnc → ds.get? j = some dev →
      (_apply_command cs fs ds).get? j = some (apply_event cmd fnc dev) := by
  intro cs
  induction cs with
  | nil => intro fs ds j cmd fnc dev h1; simp at h1
  | cons c cs' ih =>
    intro fs ds j cmd fnc dev h1 h2 h3
    cases fs with
    | nil => simp at h2
    | cons f fs' =>
      cases ds with
      | nil => simp at h3
      | cons d ds' =>
        cases j with
        | zero =>
          simp only [List.get?_cons_zero, Option.some.injEq] at h1 h2 h3
          subst h1; subst h2; subst h3
          rfl
        | succ j' =>
          rw [List.get?_cons_succ] at h1 h2 h3
          show (apply_event c f d :: _apply_command cs' fs' ds').get? (j' + 1) = _
          rw [List.get?_cons_succ]
          exact ih fs' ds' j' cmd fnc dev h1 h2 h3

/-- C9: _apply_command returns normally for any device set: the loop
produces one event per zipped device triple regardless of failures, the
event at each position depends only on that device, and a device whose
move call raises gets a failure event carrying its identity while every
other device still gets its own event. -/
theorem apply_command_isolates_failures (cs : List DevCmd)
    (fs : List (List ℚ → Except String Unit)) (ds : List String) :
    (_apply_command cs fs ds).length = min (min cs.length fs.length) ds.length ∧
    (∀ (j : Nat) (cmd : DevCmd) (fnc : List ℚ → Except String Unit) (dev : String),
      cs.get? j = some cmd → fs.get? j = some fnc → ds.get? j = some dev →
      (_apply_command cs fs ds).get? j = some (apply_event cmd fnc dev)) ∧
    (∀ (j : Nat) (cmd : DevCmd) (fnc : List ℚ → Except String Unit) (dev : String)
      (e : String),
      cs.get? j = some cmd → fs.get? j = some fnc → ds.get? j = some dev →
      cmd.to_ignore ≠ some true → fnc cmd.vect = Except.error e →
      (_apply_command cs fs ds).get? j = some (ApplyEvent.failed dev e)) := by
  refine ⟨apply_command_length cs fs ds, apply_command_get cs fs ds, ?_⟩
  intro j cmd fnc dev e h1 h2 h3 hig herr
  rw [apply_command_get cs fs ds j cmd fnc dev h1 h2 h3]
  simp [apply_event, hig, herr]

/-- Move callable that always raises. -/
def moveFail : List ℚ → Except String Unit := fun _ => Except.error "timeout"

/-- Move callable that always succeeds. -/
def moveOk : List ℚ → Except String Unit := fun _ => Except.ok ()

/-- Witness for C9: the first device's move raises, the failure is logged
with its name, and the second device is still commanded. -/
theorem apply_command_isolates_failures_witness :
    (_apply_command [⟨[1], some false⟩, ⟨[2], some false⟩] [moveFail, moveOk]
        ["parabola", "reference flat"]).get? 0 =
      some (ApplyEvent.failed "parabola" "timeout") ∧
    (_apply_command [⟨[1], some false⟩, ⟨[2], some false⟩] [moveFail, moveOk]
        ["parabola", "reference flat"]).get? 1 =
      some (ApplyEvent.commanded "reference flat" [2]) := by
  constructor
  · exact (apply_command_isolates_failures [⟨[1], some false⟩, ⟨[2], some false⟩]
      [moveFail, moveOk] ["parabola", "reference flat"]).2.2 0 ⟨[1], some false⟩
      moveFail "parabola" "timeout" rfl rfl rfl (by simp) rfl
  · exact (apply_command_isolates_failures [⟨[1], some false⟩, ⟨[2], some false⟩]
      [moveFail, moveOk] ["parabola", "reference flat"]).2.1 1 ⟨[2], some false⟩
      moveOk "reference flat" rfl rfl rfl

/-- Embeds Alignment.correct_alignment (alignment.py lines 57-103) as a
pure dataflow.  The image acquisition and the Zernike fit are external
collaborators, abstracted into the measured coefficient vector
zernike_coeff; the interaction matrix read from storage is the input
intMat; np.linalg.pinv is the abstract parameter pinv; the index subsets
are index maps; apply_command_effects stands for the device moves that
_apply_command dispatches when apply is true.  The result pairs the full
correction command f_cmd with the list of issued move effects. -/
def correct_alignment {p q z s : Nat} (cmdMat : Matrix (Fin p) (Fin q) ℚ)
    (intMat : Matrix (Fin q) (Fin z) ℚ) (zernike_coeff : Fin z → ℚ)
    (modes2correct : Fin s → Fin q) (zern2correct : Fin s → Fin z)
    (pinv : Matrix (Fin s) (Fin s) ℚ → Matrix (Fin s) (Fin s) ℚ)
    (apply_command_effects : (Fin p → ℚ) → List ApplyEvent)
    (apply : Bool) : (Fin p → ℚ) × List ApplyEvent :=
  let reduced_intMat := Matrix.submatrix intMat modes2correct zern2correct
  let reduced_cmdMat := Matrix.submatrix cmdMat id modes2correct
  let recMat := pinv reduced_intMat
  let reduced_cmd := Matrix.mulVec recMat (fun j => zernike_coeff (zern2correct j))
  let f_cmd := Matrix.mulVec reduced_cmdMat reduced_cmd
  if apply then (f_cmd, apply_command_effects f_cmd) else (f_cmd, [])

/-- C4: with apply = False, correct_alignment returns the full correction
command cmdMat[:, modes2correct] times pinv(intMat[modes2correct,
zern2correct]) times zernike_coeff[zern2correct], and issues no move call
to any device. -/
theorem correct_alignment_no_apply {p q z s : Nat} (cmdMat : Matrix (Fin p) (Fin q) ℚ)
    (intMat : Matrix (Fin q) (Fin z) ℚ) (zernike_coeff : Fin z → ℚ)
    (modes2correct : Fin s → Fin q) (zern2correct : Fin s → Fin z)
    (pinv : Matrix (Fin s) (Fin s) ℚ → Matrix (Fin s) (Fin s) ℚ)
    (apply_command_effects : (Fin p → ℚ) → List ApplyEvent) :
    correct_alignment cmdMat intMat zernike_coeff modes2correct zern2correct pinv
        apply_command_effects false =
      (Matrix.mulVec (Matrix.submatrix cmdMat id modes2correct)
        (Matrix.mulVec (pinv (Matrix.submatrix intMat modes2correct zern2correct))
          (fun j => zernike_coeff (zern2correct j))), []) := rfl

/-- One inner pass of Alignment._images_production: the demodulated image
produced for each command-matrix column in order; produce i k abstracts
the hardware acquisition plus push-pull reduction for repetition i and
column k. -/
def one_pass {α : Type} (produce : Nat → Nat → α) (ncols i : Nat) : List α :=
  (List.range ncols).map (fun k => produce i k)

/-- The contents of the mutable results list of _images_production after
the first rep repetitions: the list is created once before the outer loop
and never cleared, so every repetition appends its column images to the
same growing list. -/
def results_after {α : Type} (produce : Nat → Nat → α) (ncols : Nat) : Nat → List α
  | 0 => []
  | i + 1 => results_after produce ncols i ++ one_pass produce ncols i

/-- Embeds Alignment._images_production (alignment.py lines 182-217),
with produce abstracting the per-column acquisition and reduction.  For
n_repetitions = 1 the flat results list is returned.  Otherwise the loop
executes n_results.append(results) once per repetition: each append
stores a reference to the single mutable results object, so at return
every element of n_results denotes the same final contents of results,
embedded as n_repetitions copies of that final list. -/
def _images_production {α : Type} (produce : Nat → Nat → α)
    (ncols n_repetitions : Nat) : List α ⊕ List (List α) :=
  if n_repetitions = 1 then
    Sum.inl (results_after produce ncols n_repetitions)
  else
    Sum.inr (List.replicate n_repetitions (results_after produce ncols n_repetitions))

/-- C5: with 2 repetitions over a 1-column command matrix, the returned
list has 2 elements but each element holds both repetitions' images (the
full accumulated list of length 2, the same object appended twice), not
the 1 image of a single pass. -/
theorem images_production_repetitions_aliased :
    _images_production (fun i k => (i, k)) 1 2 =
      Sum.inr [[(0, 0), (1, 0)], [(0, 0), (1, 0)]] ∧
    List.length [((0 : Nat), (0 : Nat)), (1, 0)] = 2 ∧ (2 : Nat) ≠ 1 := by
  decide
